import Mathlib

/-!
Shallow embedding of `src/plugins/antigravity-auth/lib/account-manager.ts`
(the multi-account rotation registry) and proofs about its operations.

JavaScript mutation of account objects held in the manager's array is
modelled by explicit state passing: every operation returns the updated
`AccountManager` value together with its result.  Wall-clock time
(`Date.now()`) is passed explicitly as a `now : Nat` parameter.
Per-family sticky indices are JS numbers that can hold the sentinel `-1`,
so they are modelled as `Int`; the rotation cursor is only ever assigned
non-negative values, so it is modelled as `Nat`.
-/

namespace AccountManagerTS

/-- `type ModelFamily = 'claude' | 'gemini'` -/
inductive ModelFamily where
  | claude
  | gemini
deriving DecidableEq, Repr

/-- `type HeaderStyle = 'antigravity' | 'gemini-cli'` -/
inductive HeaderStyle where
  | antigravity
  | geminiCli
deriving DecidableEq, Repr

/-- `type QuotaKey = 'claude' | 'gemini-antigravity' | 'gemini-cli'` -/
inductive QuotaKey where
  | claude
  | geminiAntigravity
  | geminiCli
deriving DecidableEq, Repr

/-- `lastSwitchReason?: 'rate-limit' | 'initial' | 'rotation'` -/
inductive SwitchReason where
  | rateLimit
  | initial
  | rotation
deriving DecidableEq, Repr

/-- `rateLimitResetTimes: Partial Record of QuotaKey to number` — a map from
the three quota keys to optional absolute reset timestamps (ms). -/
structure RateLimitMap where
  claude : Option Nat
  geminiAntigravity : Option Nat
  geminiCli : Option Nat
deriving DecidableEq, Repr

namespace RateLimitMap

def get (m : RateLimitMap) : QuotaKey → Option Nat
  | .claude => m.claude
  | .geminiAntigravity => m.geminiAntigravity
  | .geminiCli => m.geminiCli

def set (m : RateLimitMap) (k : QuotaKey) (v : Nat) : RateLimitMap :=
  match k with
  | .claude => { m with claude := some v }
  | .geminiAntigravity => { m with geminiAntigravity := some v }
  | .geminiCli => { m with geminiCli := some v }

def erase (m : RateLimitMap) (k : QuotaKey) : RateLimitMap :=
  match k with
  | .claude => { m with claude := none }
  | .geminiAntigravity => { m with geminiAntigravity := none }
  | .geminiCli => { m with geminiCli := none }

def empty : RateLimitMap := ⟨none, none, none⟩

/-- `Object.keys(map).length > 0` is false exactly when all keys are absent. -/
def isEmpty (m : RateLimitMap) : Bool :=
  m.claude = none && m.geminiAntigravity = none && m.geminiCli = none

end RateLimitMap

/-- `interface ManagedAccount` -/
structure ManagedAccount where
  index : Nat
  email : Option String
  projectId : String
  refreshToken : String
  accessToken : Option String
  expiresAt : Option Nat
  addedAt : Nat
  lastUsed : Nat
  rateLimitResetTimes : RateLimitMap
  lastSwitchReason : Option SwitchReason
deriving DecidableEq, Repr

/-- `AntigravityTokens` (from `./types`), as consumed by `addAccount`:
the fields read there are `email`, `project_id`, `refresh_token`,
`access_token`, `expires_at`. -/
structure AntigravityTokens where
  email : Option String
  project_id : String
  refresh_token : String
  access_token : Option String
  expires_at : Option Nat
deriving DecidableEq, Repr

/-- One entry of `AccountStorageData.accounts`. -/
structure StoredAccount where
  email : Option String
  projectId : String
  refreshToken : String
  addedAt : Nat
  lastUsed : Nat
  rateLimitResetTimes : Option RateLimitMap
deriving DecidableEq, Repr

/-- `activeIndexByFamily: claude/gemini : int` -/
structure ActiveIndexByFamily where
  claude : Int
  gemini : Int
deriving DecidableEq, Repr

/-- `interface AccountStorageData` -/
structure AccountStorageData where
  version : Nat
  accounts : List StoredAccount
  activeIndexByFamily : ActiveIndexByFamily
deriving DecidableEq, Repr

/-- `getQuotaKey(family, headerStyle)` -/
def getQuotaKey (family : ModelFamily) (headerStyle : HeaderStyle) : QuotaKey :=
  match family with
  | .claude => .claude
  | .gemini => match headerStyle with
    | .geminiCli => .geminiCli
    | .antigravity => .geminiAntigravity

/-- `isRateLimitedForQuotaKey(account, key)`: the key is present and
`now < resetTime`. -/
def isRateLimitedForQuotaKey (now : Nat) (account : ManagedAccount) (key : QuotaKey) : Bool :=
  match account.rateLimitResetTimes.get key with
  | some resetTime => now < resetTime
  | none => false

/-- `isRateLimitedForFamily(account, family)`: for claude the single key;
for gemini the conjunction of both gemini pools. -/
def isRateLimitedForFamily (now : Nat) (account : ManagedAccount) (family : ModelFamily) : Bool :=
  match family with
  | .claude => isRateLimitedForQuotaKey now account .claude
  | .gemini =>
      isRateLimitedForQuotaKey now account .geminiAntigravity &&
      isRateLimitedForQuotaKey now account .geminiCli

/-- Keep an entry only when it is still unexpired (`now < resetTime`);
`now >= resetTime` deletes it. -/
def keepUnexpired (now : Nat) : Option Nat → Option Nat
  | some t => if now < t then some t else none
  | none => none

/-- `clearExpiredRateLimits(account)`: delete every key whose reset time
has passed (`now >= resetTime`). -/
def clearExpiredRateLimits (now : Nat) (account : ManagedAccount) : ManagedAccount :=
  { account with
    rateLimitResetTimes :=
      ⟨keepUnexpired now account.rateLimitResetTimes.claude,
       keepUnexpired now account.rateLimitResetTimes.geminiAntigravity,
       keepUnexpired now account.rateLimitResetTimes.geminiCli⟩ }

/-- `markRateLimited` on a single account object. -/
def markRateLimited (now : Nat) (account : ManagedAccount) (retryAfterMs : Nat)
    (family : ModelFamily) (headerStyle : HeaderStyle) : ManagedAccount :=
  { account with
    rateLimitResetTimes :=
      account.rateLimitResetTimes.set (getQuotaKey family headerStyle) (now + retryAfterMs) }

/-- The state of one `AccountManager` instance: the `accounts` array, the
rotation `cursor` and `currentAccountIndexByFamily` (claude / gemini). -/
structure AccountManager where
  accounts : List ManagedAccount
  cursor : Nat
  claudeIdx : Int
  geminiIdx : Int
deriving DecidableEq, Repr

namespace AccountManager

/-- Freshly-constructed manager: no accounts, cursor 0, both sticky
indices at the `-1` sentinel. -/
def initial : AccountManager := ⟨[], 0, -1, -1⟩

/-- Read `currentAccountIndexByFamily[family]`. -/
def familyIdx (m : AccountManager) : ModelFamily → Int
  | .claude => m.claudeIdx
  | .gemini => m.geminiIdx

/-- Write `currentAccountIndexByFamily[family] = v`. -/
def setFamilyIdx (m : AccountManager) (family : ModelFamily) (v : Int) : AccountManager :=
  match family with
  | .claude => { m with claudeIdx := v }
  | .gemini => { m with geminiIdx := v }

/-- `getAccountCount()` -/
def getAccountCount (m : AccountManager) : Nat := m.accounts.length

end AccountManager

/-- Re-assign the `index` field of each account to its position, starting
from `k` (the `forEach` re-indexing in `removeAccount`, and the positional
hydration in `loadFromStorage` uses the same scheme). -/
def reindexFrom (k : Nat) : List ManagedAccount → List ManagedAccount
  | [] => []
  | a :: rest => { a with index := k } :: reindexFrom (k + 1) rest

/-- `splice(n, 1)`: remove the element at position `n`. -/
def removeAt : Nat → List α → List α
  | _, [] => []
  | 0, _ :: rest => rest
  | n + 1, a :: rest => a :: removeAt n rest

/-- Apply `g` to the element at position `n` (mutation of the object held
at that array slot). -/
def modifyAt (g : α → α) : Nat → List α → List α
  | _, [] => []
  | 0, a :: rest => g a :: rest
  | n + 1, a :: rest => a :: modifyAt g n rest

/-- Replace the first element satisfying `p` by its image under `g`
(in-place mutation of the account found by `Array.prototype.find`). -/
def updateFirstMatch (p : α → Bool) (g : α → α) : List α → List α
  | [] => []
  | a :: rest => if p a then g a :: rest else a :: updateFirstMatch p g rest

namespace AccountManager

/-- Hydrate one stored account at position `k`
(`loadFromStorage`'s `map`): `accessToken`/`expiresAt` are not stored,
`rateLimitResetTimes` defaults to the empty map. -/
def hydrate (k : Nat) (acc : StoredAccount) : ManagedAccount :=
  { index := k
    email := acc.email
    projectId := acc.projectId
    refreshToken := acc.refreshToken
    accessToken := none
    expiresAt := none
    addedAt := acc.addedAt
    lastUsed := acc.lastUsed
    rateLimitResetTimes := acc.rateLimitResetTimes.getD RateLimitMap.empty
    lastSwitchReason := none }

def hydrateFrom (k : Nat) : List StoredAccount → List ManagedAccount
  | [] => []
  | acc :: rest => hydrate k acc :: hydrateFrom (k + 1) rest

/-- `loadFromStorage(data)`: `null` or an empty account list resets the
store; otherwise accounts are hydrated positionally and each family's
sticky index becomes `max(0, stored) % max(1, length)`; the cursor is set
to the claude sticky index. -/
def loadFromStorage (data : Option AccountStorageData) : AccountManager :=
  match data with
  | none => ⟨[], 0, -1, -1⟩
  | some d =>
    if d.accounts.length = 0 then ⟨[], 0, -1, -1⟩
    else
      let accounts := hydrateFrom 0 d.accounts
      let len : Int := (accounts.length : Int)
      let cIdx : Int := (max 0 d.activeIndexByFamily.claude) % (max 1 len)
      let gIdx : Int := (max 0 d.activeIndexByFamily.gemini) % (max 1 len)
      ⟨accounts, cIdx.toNat, cIdx, gIdx⟩

/-- `toStorageData()`: project each account to its stored fields, dropping
`rateLimitResetTimes` entirely when it has no keys, and clamp each sticky
index to `max(0, ·)`. -/
def toStorageData (m : AccountManager) : AccountStorageData :=
  { version := 1
    accounts := m.accounts.map fun acc =>
      { email := acc.email
        projectId := acc.projectId
        refreshToken := acc.refreshToken
        addedAt := acc.addedAt
        lastUsed := acc.lastUsed
        rateLimitResetTimes :=
          if acc.rateLimitResetTimes.isEmpty then none else some acc.rateLimitResetTimes }
    activeIndexByFamily := ⟨max 0 m.claudeIdx, max 0 m.geminiIdx⟩ }

end AccountManager

/-- JS truthiness of `tokens.email`: defined and not the empty string. -/
def emailTruthy : Option String → Bool
  | some s => decide (s ≠ "")
  | none => false

/-- The `find` predicate of `addAccount`:
`(tokens.email && a.email === tokens.email) || a.refreshToken === tokens.refresh_token`. -/
def matchesTokens (tokens : AntigravityTokens) (a : ManagedAccount) : Bool :=
  (emailTruthy tokens.email && decide (a.email = tokens.email)) ||
    decide (a.refreshToken = tokens.refresh_token)

/-- The in-place update `addAccount` performs on an existing account. -/
def updateExisting (tokens : AntigravityTokens) (a : ManagedAccount) : ManagedAccount :=
  { a with
    refreshToken := tokens.refresh_token
    projectId := tokens.project_id
    accessToken := tokens.access_token
    expiresAt := tokens.expires_at
    email := tokens.email }

namespace AccountManager

/-- `addAccount(tokens)`: update the first account matching by email or
refresh token in place, or append a fresh account; when the store becomes
length 1, both family sticky indices are set to 0. -/
def addAccount (now : Nat) (tokens : AntigravityTokens) (m : AccountManager) :
    ManagedAccount × AccountManager :=
  match m.accounts.find? (matchesTokens tokens) with
  | some a =>
    (updateExisting tokens a,
     { m with accounts := updateFirstMatch (matchesTokens tokens) (updateExisting tokens) m.accounts })
  | none =>
    let account : ManagedAccount :=
      { index := m.accounts.length
        email := tokens.email
        projectId := tokens.project_id
        refreshToken := tokens.refresh_token
        accessToken := tokens.access_token
        expiresAt := tokens.expires_at
        addedAt := now
        lastUsed := 0
        rateLimitResetTimes := RateLimitMap.empty
        lastSwitchReason := none }
    let accounts := m.accounts ++ [account]
    if accounts.length = 1 then
      (account, { m with accounts := accounts, claudeIdx := 0, geminiIdx := 0 })
    else
      (account, { m with accounts := accounts })

/-- The family-pointer adjustment `removeAccount` performs when the store
stays non-empty: decrement (floored at 0) when the pointer was at or above
the removed index, then clamp to `newLength - 1`. -/
def adjustIdx (removed : Nat) (newLen : Nat) (idx : Int) : Int :=
  let dec : Int := if (removed : Int) ≤ idx then max 0 (idx - 1) else idx
  min dec ((newLen : Int) - 1)

/-- `removeAccount(index)`: out-of-range indices return `false` and leave
the state untouched; otherwise the account is spliced out, the rest
re-indexed, and the sticky indices and cursor corrected. -/
def removeAccount (i : Int) (m : AccountManager) : Bool × AccountManager :=
  if i < 0 ∨ (m.accounts.length : Int) ≤ i then
    (false, m)
  else
    let accounts := reindexFrom 0 (removeAt i.toNat m.accounts)
    if accounts.length = 0 then
      (true, ⟨[], 0, -1, -1⟩)
    else
      (true,
       ⟨accounts,
        min m.cursor (accounts.length - 1),
        adjustIdx i.toNat accounts.length m.claudeIdx,
        adjustIdx i.toNat accounts.length m.geminiIdx⟩)

/-- `getCurrentAccountForFamily(family)`: the account at the family's
sticky index when that index is in range, else `null`. -/
def getCurrentAccountForFamily (m : AccountManager) (family : ModelFamily) :
    Option ManagedAccount :=
  let idx := m.familyIdx family
  if 0 ≤ idx ∧ idx < (m.accounts.length : Int) then
    m.accounts[idx.toNat]?
  else
    none

/-- Positions of the accounts that survive the eligibility filter of
`getNextForFamily` (after every account has been cleared of expired
limits). -/
def eligiblePositions (now : Nat) (family : ModelFamily) (accounts : List ManagedAccount) :
    List Nat :=
  (List.range accounts.length).filter fun k =>
    match accounts[k]? with
    | some a => !isRateLimitedForFamily now a family
    | none => false

/-- Core of `getNextForFamily`: clear expired limits on every account
(the filter callback mutates each), pick `available[cursor % available.length]`,
bump the cursor and stamp `lastUsed` on the chosen account.  Returns the
chosen account's position in the (updated) accounts array. -/
def getNextForFamilyAux (now : Nat) (family : ModelFamily) (m : AccountManager) :
    Option Nat × AccountManager :=
  let cleared := m.accounts.map (clearExpiredRateLimits now)
  let available := eligiblePositions now family cleared
  match available[m.cursor % available.length]? with
  | none => (none, { m with accounts := cleared })
  | some p =>
    (some p,
     { m with
       accounts := modifyAt (fun a => { a with lastUsed := now }) p cleared,
       cursor := m.cursor + 1 })

/-- `getNextForFamily(family)`: round-robin rotation over the currently
eligible accounts; `null` when none is eligible. -/
def getNextForFamily (now : Nat) (family : ModelFamily) (m : AccountManager) :
    Option ManagedAccount × AccountManager :=
  match m.getNextForFamilyAux now family with
  | (none, m1) => (none, m1)
  | (some p, m1) => (m1.accounts[p]?, m1)

/-- The rotation arm of `getCurrentOrNextForFamily`: rotate, and on
success set the chosen account's `lastSwitchReason` and the family's
sticky index to the chosen account's `index` field. -/
def rotateForFamily (now : Nat) (family : ModelFamily) (m : AccountManager) :
    Option ManagedAccount × AccountManager :=
  match m.getNextForFamilyAux now family with
  | (none, m1) => (none, m1)
  | (some p, m1) =>
    let accounts := modifyAt (fun a => { a with lastSwitchReason := some .rateLimit }) p m1.accounts
    let m2 := { m1 with accounts := accounts }
    match accounts[p]? with
    | some a => (some a, m2.setFamilyIdx family (a.index : Int))
    | none => (none, m2)

/-- `getCurrentOrNextForFamily(family)`: sticky fast path — if the
current account exists and, after clearing expired limits, is not
rate-limited, stamp `lastUsed` and return it; otherwise rotate. -/
def getCurrentOrNextForFamily (now : Nat) (family : ModelFamily) (m : AccountManager) :
    Option ManagedAccount × AccountManager :=
  let idx := m.familyIdx family
  if 0 ≤ idx ∧ idx < (m.accounts.length : Int) then
    match m.accounts[idx.toNat]? with
    | some a =>
      let a1 := clearExpiredRateLimits now a
      if isRateLimitedForFamily now a1 family then
        rotateForFamily now family { m with accounts := m.accounts.set idx.toNat a1 }
      else
        let a2 := { a1 with lastUsed := now }
        (some a2, { m with accounts := m.accounts.set idx.toNat a2 })
    | none => rotateForFamily now family m
  else
    rotateForFamily now family m

/-- `getAvailableHeaderStyle(account, family)`: clears expired limits on
the account (returned as the second component), then claude → its single
pool, gemini → prefer `antigravity`, then `gemini-cli`, else `null`. -/
def getAvailableHeaderStyle (now : Nat) (account : ManagedAccount) (family : ModelFamily) :
    Option HeaderStyle × ManagedAccount :=
  let a := clearExpiredRateLimits now account
  match family with
  | .claude =>
    (if isRateLimitedForQuotaKey now a .claude then none else some .antigravity, a)
  | .gemini =>
    (if !isRateLimitedForQuotaKey now a .geminiAntigravity then some .antigravity
     else if !isRateLimitedForQuotaKey now a .geminiCli then some .geminiCli
     else none, a)

end AccountManager

/-- `Array.prototype.every` with the callback of `allAccountsRateLimited`:
clears each visited account, stops at the first non-rate-limited one
(accounts after the stop point are not visited, hence not cleared). -/
def everyClearLimited (now : Nat) (family : ModelFamily) :
    List ManagedAccount → Bool × List ManagedAccount
  | [] => (true, [])
  | a :: rest =>
    let a1 := clearExpiredRateLimits now a
    if isRateLimitedForFamily now a1 family then
      let r := everyClearLimited now family rest
      (r.1, a1 :: r.2)
    else
      (false, a1 :: rest)

namespace AccountManager

/-- `allAccountsRateLimited(family)`: `every` over the accounts array. -/
def allAccountsRateLimited (now : Nat) (family : ModelFamily) (m : AccountManager) :
    Bool × AccountManager :=
  let r := everyClearLimited now family m.accounts
  (r.1, { m with accounts := r.2 })

end AccountManager

end AccountManagerTS

namespace AccountManagerTS

/-! ### Basic lemmas about the helpers -/

/-- The spec-level reading of "the pool is limited": the key is present
and unexpired. -/
def poolLimited (now : Nat) (a : ManagedAccount) (k : QuotaKey) : Prop :=
  ∃ t, a.rateLimitResetTimes.get k = some t ∧ now < t

/-- An account with no expired entry left in its map. -/
def noExpired (now : Nat) (a : ManagedAccount) : Prop :=
  ∀ k t, a.rateLimitResetTimes.get k = some t → now < t

/-- Erase one quota key from an account's map. -/
def eraseKey (k : QuotaKey) (a : ManagedAccount) : ManagedAccount :=
  { a with rateLimitResetTimes := a.rateLimitResetTimes.erase k }

theorem isRateLimitedForQuotaKey_iff (now : Nat) (a : ManagedAccount) (k : QuotaKey) :
    isRateLimitedForQuotaKey now a k = true ↔ poolLimited now a k := by
  unfold isRateLimitedForQuotaKey poolLimited
  cases h : a.rateLimitResetTimes.get k <;> simp

theorem clear_get (now : Nat) (a : ManagedAccount) (k : QuotaKey) :
    (clearExpiredRateLimits now a).rateLimitResetTimes.get k =
      keepUnexpired now (a.rateLimitResetTimes.get k) := by
  cases k <;> rfl

theorem clear_limited_key (now : Nat) (a : ManagedAccount) (k : QuotaKey) :
    isRateLimitedForQuotaKey now (clearExpiredRateLimits now a) k =
      isRateLimitedForQuotaKey now a k := by
  unfold isRateLimitedForQuotaKey
  rw [clear_get]
  cases h : a.rateLimitResetTimes.get k with
  | none => rfl
  | some t =>
    by_cases ht : now < t <;> simp [keepUnexpired, ht]

theorem clear_limited_family (now : Nat) (a : ManagedAccount) (family : ModelFamily) :
    isRateLimitedForFamily now (clearExpiredRateLimits now a) family =
      isRateLimitedForFamily now a family := by
  cases family <;> simp [isRateLimitedForFamily, clear_limited_key]

theorem keepUnexpired_idem (now : Nat) (o : Option Nat) :
    keepUnexpired now (keepUnexpired now o) = keepUnexpired now o := by
  cases o with
  | none => rfl
  | some t => by_cases h : now < t <;> simp [keepUnexpired, h]

theorem clear_idem (now : Nat) (a : ManagedAccount) :
    clearExpiredRateLimits now (clearExpiredRateLimits now a) =
      clearExpiredRateLimits now a := by
  simp [clearExpiredRateLimits, keepUnexpired_idem]

theorem clear_noExpired (now : Nat) (a : ManagedAccount) :
    noExpired now (clearExpiredRateLimits now a) := by
  intro k t h
  rw [clear_get] at h
  cases ho : a.rateLimitResetTimes.get k with
  | none => rw [ho] at h; simp [keepUnexpired] at h
  | some u =>
    rw [ho] at h
    by_cases hu : now < u <;> simp [keepUnexpired, hu] at h
    exact h ▸ hu

theorem clear_index (now : Nat) (a : ManagedAccount) :
    (clearExpiredRateLimits now a).index = a.index := rfl

theorem clear_lastUsed_comm (now x : Nat) (a : ManagedAccount) :
    clearExpiredRateLimits now { a with lastUsed := x } =
      { clearExpiredRateLimits now a with lastUsed := x } := rfl

end AccountManagerTS

namespace AccountManagerTS

/-! ### List helper lemmas -/

theorem reindexFrom_length (k : Nat) (l : List ManagedAccount) :
    (reindexFrom k l).length = l.length := by
  induction l generalizing k with
  | nil => rfl
  | cons a rest ih => simp [reindexFrom, ih]

theorem reindexFrom_getElem? (k : Nat) (l : List ManagedAccount) (j : Nat) :
    (reindexFrom k l)[j]? = (l[j]?).map (fun a => { a with index := k + j }) := by
  induction l generalizing k j with
  | nil => simp [reindexFrom]
  | cons a rest ih =>
    cases j with
    | zero => simp [reindexFrom]
    | succ n =>
      have harith : k + 1 + n = k + (n + 1) := by omega
      simp only [reindexFrom, List.getElem?_cons_succ, ih (k + 1) n, harith]

theorem removeAt_length (n : Nat) (l : List α) (h : n < l.length) :
    (removeAt n l).length = l.length - 1 := by
  induction l generalizing n with
  | nil => simp at h
  | cons a rest ih =>
    cases n with
    | zero => simp [removeAt]
    | succ m =>
      have : m < rest.length := by simpa using h
      simp [removeAt, ih m this]
      omega

theorem removeAt_getElem? (n : Nat) (l : List α) (j : Nat) (h : n < l.length) :
    (removeAt n l)[j]? = if j < n then l[j]? else l[j + 1]? := by
  induction l generalizing n j with
  | nil => simp at h
  | cons a rest ih =>
    cases n with
    | zero => simp [removeAt]
    | succ m =>
      cases j with
      | zero => simp [removeAt]
      | succ i =>
        have hm : m < rest.length := by simpa using h
        simp only [removeAt, List.getElem?_cons_succ, ih m i hm]
        by_cases him : i < m <;> simp [him]

theorem modifyAt_length (g : α → α) (n : Nat) (l : List α) :
    (modifyAt g n l).length = l.length := by
  induction l generalizing n with
  | nil => cases n <;> rfl
  | cons a rest ih =>
    cases n with
    | zero => simp [modifyAt]
    | succ m => simp [modifyAt, ih]

theorem modifyAt_getElem? (g : α → α) (n : Nat) (l : List α) (j : Nat) :
    (modifyAt g n l)[j]? = if j = n then (l[j]?).map g else l[j]? := by
  induction l generalizing n j with
  | nil => simp [modifyAt]
  | cons a rest ih =>
    cases n with
    | zero =>
      cases j with
      | zero => simp [modifyAt]
      | succ i => simp [modifyAt]
    | succ m =>
      cases j with
      | zero => simp [modifyAt]
      | succ i =>
        simp only [modifyAt, List.getElem?_cons_succ, ih m i]
        by_cases him : i = m <;> simp [him]

theorem updateFirstMatch_length (p : α → Bool) (g : α → α) (l : List α) :
    (updateFirstMatch p g l).length = l.length := by
  induction l with
  | nil => rfl
  | cons a rest ih =>
    by_cases hp : p a <;> simp [updateFirstMatch, hp, ih]

theorem updateFirstMatch_getElem?_of_none (p : α → Bool) (g : α → α) (l : List α)
    (h : l.find? p = none) : updateFirstMatch p g l = l := by
  induction l with
  | nil => rfl
  | cons a rest ih =>
    rw [List.find?_cons] at h
    cases hp : p a with
    | true => simp [hp] at h
    | false =>
      rw [hp] at h
      simp [updateFirstMatch, hp, ih h]

theorem find?_of_first (l : List α) (p : α → Bool) (j : Nat) (a : α)
    (hj : l[j]? = some a) (hpa : p a = true)
    (hfirst : ∀ j' < j, ∀ b, l[j']? = some b → p b = false) : l.find? p = some a := by
  induction l generalizing j with
  | nil => simp at hj
  | cons x xs ih =>
    cases j with
    | zero => simp at hj; subst hj; simp [List.find?, hpa]
    | succ n =>
      have hx : p x = false := hfirst 0 (Nat.succ_pos n) x (by simp)
      simp at hj
      simp [List.find?, hx]
      exact ih n hj (fun j' hj' b hb => hfirst (j' + 1) (Nat.succ_lt_succ hj') b (by simpa using hb))

theorem updateFirstMatch_getElem?_of_first (p : α → Bool) (g : α → α) (l : List α)
    (j : Nat) (a : α) (hj : l[j]? = some a) (hpa : p a = true)
    (hfirst : ∀ j' < j, ∀ b, l[j']? = some b → p b = false) :
    ∀ k, (updateFirstMatch p g l)[k]? = if k = j then some (g a) else l[k]? := by
  induction l generalizing j with
  | nil => simp at hj
  | cons x xs ih =>
    cases j with
    | zero =>
      simp at hj
      subst hj
      intro k
      cases k with
      | zero => simp [updateFirstMatch, hpa]
      | succ i => simp [updateFirstMatch, hpa]
    | succ n =>
      have hx : p x = false := hfirst 0 (Nat.succ_pos n) x (by simp)
      simp at hj
      intro k
      cases k with
      | zero => simp [updateFirstMatch, hx]
      | succ i =>
        simp only [updateFirstMatch, hx, Bool.false_eq_true, if_false,
          List.getElem?_cons_succ]
        rw [ih n hj (fun j' hj' b hb => hfirst (j' + 1) (Nat.succ_lt_succ hj') b (by simpa using hb)) i]
        by_cases hin : i = n <;> simp [hin]

theorem hydrateFrom_length (k : Nat) (l : List StoredAccount) :
    (AccountManager.hydrateFrom k l).length = l.length := by
  induction l generalizing k with
  | nil => rfl
  | cons a rest ih => simp [AccountManager.hydrateFrom, ih]

theorem hydrateFrom_getElem? (k : Nat) (l : List StoredAccount) (j : Nat) :
    (AccountManager.hydrateFrom k l)[j]? = (l[j]?).map (AccountManager.hydrate (k + j)) := by
  induction l generalizing k j with
  | nil => simp [AccountManager.hydrateFrom]
  | cons a rest ih =>
    cases j with
    | zero => simp [AccountManager.hydrateFrom]
    | succ n =>
      have harith : k + 1 + n = k + (n + 1) := by omega
      simp only [AccountManager.hydrateFrom, List.getElem?_cons_succ, ih (k + 1) n, harith]

theorem add_mod_inj (c N k1 k2 : Nat) (h1 : k1 < N) (h2 : k2 < N)
    (he : (c + k1) % N = (c + k2) % N) : k1 = k2 := by
  have h : k1 % N = k2 % N := Nat.ModEq.add_left_cancel' c he
  rwa [Nat.mod_eq_of_lt h1, Nat.mod_eq_of_lt h2] at h

end AccountManagerTS

namespace AccountManagerTS

/-! ### C1: `allAccountsRateLimited` on an empty store -/

/-- C1 counterexample: the fresh (empty) manager has zero accounts, yet
`allAccountsRateLimited` returns `true` for it (JS `Array.prototype.every`
is vacuously true), contradicting the claim that an empty store is
reported as not all rate limited. -/
theorem allAccountsRateLimited_empty_true :
    AccountManager.getAccountCount AccountManager.initial = 0 ∧
      (AccountManager.allAccountsRateLimited 0 ModelFamily.claude AccountManager.initial).1 = true := by
  exact ⟨rfl, rfl⟩

/-- C1 (amended): for every model family and any manager state with zero
accounts, `allAccountsRateLimited(family)` returns `true` (the vacuous
case is included, not excluded); callers must check `accountCount == 0`
separately to distinguish it. -/
theorem allAccountsRateLimited_vacuously_true (now : Nat) (family : ModelFamily)
    (cursor : Nat) (ci gi : Int) :
    (AccountManager.allAccountsRateLimited now family ⟨[], cursor, ci, gi⟩).1 = true := by
  rfl

/-! ### C3: gemini dual-pool rule and header-style preference -/

/-- C3: an account is rate-limited for the gemini family iff both the
`gemini-antigravity` and `gemini-cli` entries are present and unexpired,
and `getAvailableHeaderStyle(account, gemini)` returns `antigravity`
whenever the antigravity pool is open, else `gemini-cli` whenever that
pool is open, else `null` (fixed preference order). -/
theorem gemini_limit_and_header_style (now : Nat) (a : ManagedAccount) :
    (isRateLimitedForFamily now a .gemini = true ↔
      poolLimited now a .geminiAntigravity ∧ poolLimited now a .geminiCli) ∧
    ((AccountManager.getAvailableHeaderStyle now a .gemini).1 = some .antigravity ↔
      ¬ poolLimited now a .geminiAntigravity) ∧
    ((AccountManager.getAvailableHeaderStyle now a .gemini).1 = some .geminiCli ↔
      poolLimited now a .geminiAntigravity ∧ ¬ poolLimited now a .geminiCli) ∧
    ((AccountManager.getAvailableHeaderStyle now a .gemini).1 = none ↔
      poolLimited now a .geminiAntigravity ∧ poolLimited now a .geminiCli) := by
  have hA := clear_limited_key now a .geminiAntigravity
  have hC := clear_limited_key now a .geminiCli
  simp only [← isRateLimitedForQuotaKey_iff]
  unfold AccountManager.getAvailableHeaderStyle
  simp only [isRateLimitedForFamily, hA, hC]
  cases hb : isRateLimitedForQuotaKey now a .geminiAntigravity <;>
    cases hc : isRateLimitedForQuotaKey now a .geminiCli <;>
      simp [hb, hc, hA, hC]

/-! ### C10: adding to an emptied store re-initializes both sticky pointers -/

/-- C10: whenever `addAccount` appends to a store whose account count is
zero (in particular one emptied by `removeAccount`, where both sticky
pointers sit at the `-1` sentinel), both family sticky pointers are set
to 0 and the new account immediately becomes the sticky account for both
families. -/
theorem addAccount_first_sets_sticky (now : Nat) (tokens : AntigravityTokens)
    (m : AccountManager) (h : m.accounts = []) :
    (m.addAccount now tokens).2.claudeIdx = 0 ∧
    (m.addAccount now tokens).2.geminiIdx = 0 ∧
    (m.addAccount now tokens).2.getCurrentAccountForFamily .claude =
      some (m.addAccount now tokens).1 ∧
    (m.addAccount now tokens).2.getCurrentAccountForFamily .gemini =
      some (m.addAccount now tokens).1 := by
  obtain ⟨accs, cur, ci, gi⟩ := m
  simp only at h
  subst h
  simp [AccountManager.addAccount, AccountManager.getCurrentAccountForFamily,
    AccountManager.familyIdx]

/-- C10 witness: a store that held one account and was emptied by
`removeAccount` (leaving sticky pointers at `-1`); adding a fresh account
sets both sticky pointers to 0 and makes it current for both families. -/
theorem addAccount_first_sets_sticky_witness :
    (((AccountManager.removeAccount 0
        (AccountManager.addAccount 1 ⟨some "a@x", "p", "r1", none, none⟩
          AccountManager.initial).2).2).addAccount 2
        ⟨some "b@x", "p", "r2", none, none⟩).2.claudeIdx = 0 ∧
    (((AccountManager.removeAccount 0
        (AccountManager.addAccount 1 ⟨some "a@x", "p", "r1", none, none⟩
          AccountManager.initial).2).2).addAccount 2
        ⟨some "b@x", "p", "r2", none, none⟩).2.geminiIdx = 0 ∧
    (((AccountManager.removeAccount 0
        (AccountManager.addAccount 1 ⟨some "a@x", "p", "r1", none, none⟩
          AccountManager.initial).2).2).addAccount 2
        ⟨some "b@x", "p", "r2", none, none⟩).2.getCurrentAccountForFamily .claude =
      some (((AccountManager.removeAccount 0
        (AccountManager.addAccount 1 ⟨some "a@x", "p", "r1", none, none⟩
          AccountManager.initial).2).2).addAccount 2
        ⟨some "b@x", "p", "r2", none, none⟩).1 ∧
    (((AccountManager.removeAccount 0
        (AccountManager.addAccount 1 ⟨some "a@x", "p", "r1", none, none⟩
          AccountManager.initial).2).2).addAccount 2
        ⟨some "b@x", "p", "r2", none, none⟩).2.getCurrentAccountForFamily .gemini =
      some (((AccountManager.removeAccount 0
        (AccountManager.addAccount 1 ⟨some "a@x", "p", "r1", none, none⟩
          AccountManager.initial).2).2).addAccount 2
        ⟨some "b@x", "p", "r2", none, none⟩).1 :=
  addAccount_first_sets_sticky 2 ⟨some "b@x", "p", "r2", none, none⟩
    (AccountManager.removeAccount 0
      (AccountManager.addAccount 1 ⟨some "a@x", "p", "r1", none, none⟩
        AccountManager.initial).2).2 (by decide)

end AccountManagerTS

namespace AccountManagerTS

/-! ### C4: pure stickiness while the current account stays eligible -/

theorem limited_lastUsed (now x : Nat) (a : ManagedAccount) (family : ModelFamily) :
    isRateLimitedForFamily now { a with lastUsed := x } family =
      isRateLimitedForFamily now a family := rfl

/-- Helper: when the sticky account exists and is eligible after lazy
expiry, `getCurrentOrNextForFamily` returns it (cleared, `lastUsed`
stamped) and only replaces that slot of the accounts array. -/
theorem getCurrentOrNext_sticky_eligible (now : Nat) (family : ModelFamily)
    (m : AccountManager) (p : Nat) (a : ManagedAccount)
    (hidx : m.familyIdx family = (p : Int))
    (hp : m.accounts[p]? = some a)
    (helig : isRateLimitedForFamily now (clearExpiredRateLimits now a) family = false) :
    m.getCurrentOrNextForFamily now family =
      (some { clearExpiredRateLimits now a with lastUsed := now },
       { m with accounts :=
           m.accounts.set p { clearExpiredRateLimits now a with lastUsed := now } }) := by
  have hlt : p < m.accounts.length := (List.getElem?_eq_some.mp hp).1
  have hcond : (0 : Int) ≤ (p : Int) ∧ (p : Int) < (m.accounts.length : Int) :=
    ⟨Int.natCast_nonneg p, by exact_mod_cast hlt⟩
  unfold AccountManager.getCurrentOrNextForFamily
  rw [hidx, if_pos hcond]
  simp only [Int.toNat_natCast]
  rw [hp]
  simp [helig]

/-- C4: if the family's sticky account exists and, after lazy expiry, is
not rate-limited for that family, `getCurrentOrNextForFamily` returns
that account with only `lastUsed` updated, performs no rotation (cursor
and both sticky indices unchanged, only that array slot replaced), and a
repeated call returns the same account again. -/
theorem sticky_fast_path (now : Nat) (family : ModelFamily)
    (m : AccountManager) (p : Nat) (a : ManagedAccount)
    (hidx : m.familyIdx family = (p : Int))
    (hp : m.accounts[p]? = some a)
    (helig : isRateLimitedForFamily now (clearExpiredRateLimits now a) family = false) :
    (m.getCurrentOrNextForFamily now family).1 =
      some { clearExpiredRateLimits now a with lastUsed := now } ∧
    (m.getCurrentOrNextForFamily now family).2.accounts =
      m.accounts.set p { clearExpiredRateLimits now a with lastUsed := now } ∧
    (m.getCurrentOrNextForFamily now family).2.cursor = m.cursor ∧
    (m.getCurrentOrNextForFamily now family).2.claudeIdx = m.claudeIdx ∧
    (m.getCurrentOrNextForFamily now family).2.geminiIdx = m.geminiIdx ∧
    (((m.getCurrentOrNextForFamily now family).2).getCurrentOrNextForFamily now family).1 =
      some { clearExpiredRateLimits now a with lastUsed := now } := by
  have hlt : p < m.accounts.length := (List.getElem?_eq_some.mp hp).1
  have h1 := getCurrentOrNext_sticky_eligible now family m p a hidx hp helig
  have hclear2 : clearExpiredRateLimits now { clearExpiredRateLimits now a with lastUsed := now } =
      { clearExpiredRateLimits now a with lastUsed := now } := by
    rw [clear_lastUsed_comm, clear_idem]
  refine ⟨by rw [h1], by rw [h1], by rw [h1], by rw [h1], by rw [h1], ?_⟩
  have hidx2 : (m.getCurrentOrNextForFamily now family).2.familyIdx family = (p : Int) := by
    rw [h1]
    cases family <;> simpa [AccountManager.familyIdx] using hidx
  have hp2 : (m.getCurrentOrNextForFamily now family).2.accounts[p]? =
      some { clearExpiredRateLimits now a with lastUsed := now } := by
    rw [h1]
    simp [List.getElem?_set, hlt]
  have helig2 : isRateLimitedForFamily now
      (clearExpiredRateLimits now { clearExpiredRateLimits now a with lastUsed := now })
        family = false := by
    rw [hclear2, limited_lastUsed, clear_limited_family, ← clear_limited_family, helig]
  have h2 := getCurrentOrNext_sticky_eligible now family _ p _ hidx2 hp2 helig2
  rw [h2]
  rw [hclear2]

def mW4 : AccountManager :=
  (AccountManager.addAccount 1 ⟨some "a@x", "p", "r1", none, none⟩ AccountManager.initial).2

def aW4 : ManagedAccount :=
  ⟨0, some "a@x", "p", "r1", none, none, 1, 0, RateLimitMap.empty, none⟩

/-- C4 witness: a one-account store whose sticky claude account is
eligible; `getCurrentOrNextForFamily` returns it with `lastUsed = 5`. -/
theorem sticky_fast_path_witness :
    mW4.familyIdx .claude = ((0 : Nat) : Int) ∧
    mW4.accounts[0]? = some aW4 ∧
    isRateLimitedForFamily 5 (clearExpiredRateLimits 5 aW4) .claude = false ∧
    (mW4.getCurrentOrNextForFamily 5 .claude).1 =
      some { clearExpiredRateLimits 5 aW4 with lastUsed := 5 } :=
  ⟨by decide, by decide, by decide,
   (sticky_fast_path 5 .claude mW4 0 aW4 (by decide) (by decide) (by decide)).1⟩

end AccountManagerTS

namespace AccountManagerTS

/-! ### C6: lazy expiry — expired entries are invisible and purged on check -/

theorem noExpired_lastUsed (now x : Nat) (a : ManagedAccount) :
    noExpired now { a with lastUsed := x } ↔ noExpired now a := Iff.rfl

theorem noExpired_reason (now : Nat) (r : Option SwitchReason) (a : ManagedAccount) :
    noExpired now { a with lastSwitchReason := r } ↔ noExpired now a := Iff.rfl

theorem erase_expired_limited_key (now : Nat) (a : ManagedAccount) (k : QuotaKey) (t : Nat)
    (hget : a.rateLimitResetTimes.get k = some t) (ht : t ≤ now) (k2 : QuotaKey) :
    isRateLimitedForQuotaKey now (eraseKey k a) k2 = isRateLimitedForQuotaKey now a k2 := by
  by_cases hk : k2 = k
  · subst hk
    have hnot : ¬ now < t := by omega
    unfold isRateLimitedForQuotaKey eraseKey
    rw [hget]
    cases k2 <;> simp [RateLimitMap.erase, RateLimitMap.get, hnot]
  · unfold isRateLimitedForQuotaKey eraseKey
    cases k <;> cases k2 <;> simp_all [RateLimitMap.erase, RateLimitMap.get]

theorem aux_accounts_noExpired (now : Nat) (family : ModelFamily) (m : AccountManager) :
    ∀ (j : Nat) (a' : ManagedAccount), (m.getNextForFamilyAux now family).2.accounts[j]? = some a' →
      noExpired now a' := by
  intro j a' h
  unfold AccountManager.getNextForFamilyAux at h
  simp only at h
  split at h
  · simp only at h
    rw [List.getElem?_map] at h
    cases ho : m.accounts[j]? with
    | none => rw [ho] at h; simp at h
    | some b =>
      rw [ho] at h
      simp at h
      exact h ▸ clear_noExpired now b
  · simp only at h
    rw [modifyAt_getElem?] at h
    split at h
    · rw [List.getElem?_map] at h
      cases ho : m.accounts[j]? with
      | none => rw [ho] at h; simp at h
      | some b =>
        rw [ho] at h
        simp at h
        rw [← h]
        exact (noExpired_lastUsed now now (clearExpiredRateLimits now b)).mpr
          (clear_noExpired now b)
    · rw [List.getElem?_map] at h
      cases ho : m.accounts[j]? with
      | none => rw [ho] at h; simp at h
      | some b =>
        rw [ho] at h
        simp at h
        exact h ▸ clear_noExpired now b

theorem setFamilyIdx_accounts (m : AccountManager) (family : ModelFamily) (v : Int) :
    (m.setFamilyIdx family v).accounts = m.accounts := by
  cases family <;> rfl

theorem rotate_accounts_noExpired (now : Nat) (family : ModelFamily) (m : AccountManager) :
    ∀ (j : Nat) (a' : ManagedAccount),
      (AccountManager.rotateForFamily now family m).2.accounts[j]? = some a' →
      noExpired now a' := by
  intro j a' h
  unfold AccountManager.rotateForFamily at h
  cases haux : m.getNextForFamilyAux now family with
  | mk o m1 =>
    have haux2 : (m.getNextForFamilyAux now family).2 = m1 := by rw [haux]
    cases o with
    | none =>
      rw [haux] at h
      simp only at h
      exact aux_accounts_noExpired now family m j a' (by rw [haux2]; exact h)
    | some p =>
      rw [haux] at h
      simp only at h
      split at h <;>
        simp only [setFamilyIdx_accounts] at h <;>
          rw [modifyAt_getElem?] at h <;>
            revert h <;>
              split <;>
                intro h
      · cases ho : m1.accounts[j]? with
        | none => rw [ho] at h; simp at h
        | some c =>
          rw [ho] at h
          simp at h
          rw [← h]
          exact (noExpired_reason now _ c).mpr
            (aux_accounts_noExpired now family m j c (by rw [haux2]; exact ho))
      · exact aux_accounts_noExpired now family m j a' (by rw [haux2]; exact h)
      · cases ho : m1.accounts[j]? with
        | none => rw [ho] at h; simp at h
        | some c =>
          rw [ho] at h
          simp at h
          rw [← h]
          exact (noExpired_reason now _ c).mpr
            (aux_accounts_noExpired now family m j c (by rw [haux2]; exact ho))
      · exact aux_accounts_noExpired now family m j a' (by rw [haux2]; exact h)

theorem getCurrentOrNext_accounts_clean (now : Nat) (family : ModelFamily)
    (m : AccountManager) :
    ∀ (j : Nat) (a' : ManagedAccount),
      (m.getCurrentOrNextForFamily now family).2.accounts[j]? = some a' →
      m.accounts[j]? = some a' ∨ noExpired now a' := by
  intro j a' h
  unfold AccountManager.getCurrentOrNextForFamily at h
  simp only at h
  split at h
  · split at h
    · rename_i a ha
      split at h
      · exact Or.inr (rotate_accounts_noExpired now family _ j a' h)
      · simp only at h
        rw [List.getElem?_set] at h
        split at h
        · split at h
          · simp at h
            refine Or.inr ?_
            rw [← h]
            exact (noExpired_lastUsed now now _).mpr (clear_noExpired now a)
          · simp at h
        · exact Or.inl h
    · exact Or.inr (rotate_accounts_noExpired now family _ j a' h)
  · exact Or.inr (rotate_accounts_noExpired now family _ j a' h)

theorem everyClearLimited_accounts (now : Nat) (family : ModelFamily)
    (l : List ManagedAccount) :
    ∀ (j : Nat) (a' : ManagedAccount),
      (everyClearLimited now family l).2[j]? = some a' →
      l[j]? = some a' ∨ noExpired now a' := by
  induction l with
  | nil => intro j a' h; simp [everyClearLimited] at h
  | cons a rest ih =>
    intro j a' h
    unfold everyClearLimited at h
    simp only at h
    split at h <;>
    · simp only at h
      cases j with
      | zero =>
        simp at h
        exact Or.inr (h ▸ clear_noExpired now a)
      | succ i =>
        simp only [List.getElem?_cons_succ] at h ⊢
        first
        | exact ih i a' h
        | exact Or.inl h

theorem everyClearLimited_true_clean (now : Nat) (family : ModelFamily)
    (l : List ManagedAccount) (htrue : (everyClearLimited now family l).1 = true) :
    ∀ (j : Nat) (a' : ManagedAccount),
      (everyClearLimited now family l).2[j]? = some a' → noExpired now a' := by
  induction l with
  | nil => intro j a' h; simp [everyClearLimited] at h
  | cons a rest ih =>
    intro j a' h
    unfold everyClearLimited at h htrue
    simp only at h htrue
    split at h
    · rename_i hlim
      simp only at h
      cases j with
      | zero =>
        simp at h
        exact h ▸ clear_noExpired now a
      | succ i =>
        simp only [List.getElem?_cons_succ] at h
        refine ih ?_ i a' h
        rw [hlim] at htrue
        simpa using htrue
    · rename_i hlim
      rw [if_neg hlim] at htrue
      simp at htrue

theorem getNext_snd (now : Nat) (family : ModelFamily) (m : AccountManager) :
    (m.getNextForFamily now family).2 = (m.getNextForFamilyAux now family).2 := by
  unfold AccountManager.getNextForFamily
  cases h : m.getNextForFamilyAux now family with
  | mk o m1 => cases o <;> simp

end AccountManagerTS

namespace AccountManagerTS

/-- C6: a quota-key entry with `resetTime <= now` does not affect any
eligibility check (erasing it changes no family eligibility, and the lazy
clear changes no family eligibility either), and as a side effect of
`getNextForFamily`, `getCurrentOrNextForFamily`, `getAvailableHeaderStyle`
and `allAccountsRateLimited` every checked account is left with no
expired entry in its `rateLimitResetTimes` map (accounts the short-circuit
of `every` never visits stay untouched); `markRateLimited` only writes its
own key and removes nothing. -/
theorem lazy_expiry (now : Nat) (family : ModelFamily) (m : AccountManager)
    (account : ManagedAccount) (k : QuotaKey) (t : Nat) :
    (account.rateLimitResetTimes.get k = some t → t ≤ now →
      ∀ f2, isRateLimitedForFamily now (eraseKey k account) f2 =
        isRateLimitedForFamily now account f2) ∧
    (isRateLimitedForFamily now (clearExpiredRateLimits now account) family =
      isRateLimitedForFamily now account family) ∧
    noExpired now (clearExpiredRateLimits now account) ∧
    noExpired now (AccountManager.getAvailableHeaderStyle now account family).2 ∧
    (∀ (j : Nat) (a' : ManagedAccount),
      (m.getNextForFamily now family).2.accounts[j]? = some a' → noExpired now a') ∧
    (∀ (j : Nat) (a' : ManagedAccount),
      (m.getCurrentOrNextForFamily now family).2.accounts[j]? = some a' →
        m.accounts[j]? = some a' ∨ noExpired now a') ∧
    (∀ (j : Nat) (a' : ManagedAccount),
      (m.allAccountsRateLimited now family).2.accounts[j]? = some a' →
        m.accounts[j]? = some a' ∨ noExpired now a') ∧
    ((m.allAccountsRateLimited now family).1 = true →
      ∀ (j : Nat) (a' : ManagedAccount),
        (m.allAccountsRateLimited now family).2.accounts[j]? = some a' →
          noExpired now a') ∧
    (∀ (retryAfterMs : Nat) (h : HeaderStyle) (k2 : QuotaKey),
      k2 ≠ getQuotaKey family h →
      (markRateLimited now account retryAfterMs family h).rateLimitResetTimes.get k2 =
        account.rateLimitResetTimes.get k2) := by
  refine ⟨?_, clear_limited_family now account family, clear_noExpired now account, ?_, ?_, ?_, ?_, ?_, ?_⟩
  · intro hget ht f2
    cases f2 <;>
      simp [isRateLimitedForFamily, erase_expired_limited_key now account k t hget ht]
  · unfold AccountManager.getAvailableHeaderStyle
    cases family <;> simp <;> exact clear_noExpired now account
  · intro j a' h
    rw [getNext_snd] at h
    exact aux_accounts_noExpired now family m j a' h
  · exact getCurrentOrNext_accounts_clean now family m
  · intro j a' h
    exact everyClearLimited_accounts now family m.accounts j a' h
  · intro htrue j a' h
    exact everyClearLimited_true_clean now family m.accounts htrue j a' h
  · intro r h k2 hne
    unfold markRateLimited RateLimitMap.set
    cases hk : getQuotaKey family h <;> rw [hk] at hne <;>
      cases k2 <;> simp_all [RateLimitMap.get]

def aW6 : ManagedAccount :=
  ⟨0, none, "p", "r", none, none, 0, 0, ⟨some 5, none, none⟩, none⟩

/-- C6 witness: an account with an expired claude entry (`resetTime = 5`,
`now = 10`): erasing the entry does not change claude eligibility. -/
theorem lazy_expiry_witness :
    isRateLimitedForFamily 10 (eraseKey QuotaKey.claude aW6) ModelFamily.claude =
      isRateLimitedForFamily 10 aW6 ModelFamily.claude :=
  (lazy_expiry 10 ModelFamily.claude AccountManager.initial aW6 QuotaKey.claude 5).1
    (by decide) (by decide) ModelFamily.claude

end AccountManagerTS

namespace AccountManagerTS

/-! ### C7: removeAccount -/

/-- C7: `removeAccount(i)` with `i` outside `[0, accountCount)` returns
`false` and leaves the state unchanged; with valid `i` it deletes that
account (each survivor at position `k` is the old account at `k` or
`k + 1` with its `index` field reassigned to `k`), decrements each sticky
pointer that was `>= i` (floored at 0) and clamps it to the new top index,
clamps the cursor likewise, resets everything to the no-accounts sentinel
state when the store becomes empty, and returns `true`. -/
theorem removeAccount_spec (m : AccountManager) (i : Int) :
    ((i < 0 ∨ (m.accounts.length : Int) ≤ i) → m.removeAccount i = (false, m)) ∧
    (0 ≤ i → i < (m.accounts.length : Int) →
      (m.removeAccount i).1 = true ∧
      (m.removeAccount i).2.accounts.length = m.accounts.length - 1 ∧
      (∀ (k : Nat) (a : ManagedAccount), (m.removeAccount i).2.accounts[k]? = some a →
        ∃ b, m.accounts[if k < i.toNat then k else k + 1]? = some b ∧
          a = { b with index := k }) ∧
      (if m.accounts.length = 1 then
        (m.removeAccount i).2 = ⟨[], 0, -1, -1⟩
      else
        (m.removeAccount i).2.claudeIdx =
          min (if i ≤ m.claudeIdx then max 0 (m.claudeIdx - 1) else m.claudeIdx)
            ((m.accounts.length : Int) - 2) ∧
        (m.removeAccount i).2.geminiIdx =
          min (if i ≤ m.geminiIdx then max 0 (m.geminiIdx - 1) else m.geminiIdx)
            ((m.accounts.length : Int) - 2) ∧
        (m.removeAccount i).2.cursor = min m.cursor (m.accounts.length - 2))) := by
  constructor
  · intro hout
    unfold AccountManager.removeAccount
    rw [if_pos hout]
  · intro h0 hlt
    have hnot : ¬ (i < 0 ∨ (m.accounts.length : Int) ≤ i) := by omega
    have htn : i.toNat < m.accounts.length := by omega
    have hlen : (reindexFrom 0 (removeAt i.toNat m.accounts)).length =
        m.accounts.length - 1 := by
      rw [reindexFrom_length, removeAt_length i.toNat m.accounts htn]
    have hshift : ∀ (k : Nat) (a : ManagedAccount),
        (reindexFrom 0 (removeAt i.toNat m.accounts))[k]? = some a →
        ∃ b, m.accounts[if k < i.toNat then k else k + 1]? = some b ∧
          a = { b with index := k } := by
      intro k a h
      rw [reindexFrom_getElem?, removeAt_getElem? i.toNat m.accounts k htn] at h
      by_cases hk : k < i.toNat
      · rw [if_pos hk] at h
        rw [if_pos hk]
        rcases Option.map_eq_some'.mp h with ⟨b, hb, hab⟩
        exact ⟨b, hb, by rw [← hab]; simp⟩
      · rw [if_neg hk] at h
        rw [if_neg hk]
        rcases Option.map_eq_some'.mp h with ⟨b, hb, hab⟩
        exact ⟨b, hb, by rw [← hab]; simp⟩
    unfold AccountManager.removeAccount
    rw [if_neg hnot]
    by_cases h1 : m.accounts.length = 1
    · have hz : (reindexFrom 0 (removeAt i.toNat m.accounts)).length = 0 := by omega
      rw [if_pos hz]
      refine ⟨rfl, by simp [h1], ?_, ?_⟩
      · intro k a h
        simp at h
      · rw [if_pos h1]
    · have hz : ¬ (reindexFrom 0 (removeAt i.toNat m.accounts)).length = 0 := by omega
      rw [if_neg hz]
      have hilen : ((i.toNat : Nat) : Int) = i := Int.toNat_of_nonneg h0
      have hc2 : (((reindexFrom 0 (removeAt i.toNat m.accounts)).length : Int) - 1) =
          (m.accounts.length : Int) - 2 := by
        rw [hlen]; omega
      have hc3 : (reindexFrom 0 (removeAt i.toNat m.accounts)).length - 1 =
          m.accounts.length - 2 := by omega
      refine ⟨rfl, by simpa using hlen, hshift, ?_⟩
      rw [if_neg h1]
      unfold AccountManager.adjustIdx
      simp only [hilen, hc2, hc3]
      trivial

def mW7 : AccountManager :=
  ⟨[⟨0, some "a", "p", "r1", none, none, 1, 0, RateLimitMap.empty, none⟩,
    ⟨1, some "b", "p", "r2", none, none, 2, 0, RateLimitMap.empty, none⟩,
    ⟨2, some "c", "p", "r3", none, none, 3, 0, RateLimitMap.empty, none⟩], 0, 0, 0⟩

/-- C7 witness: removing index 1 from a three-account store succeeds and
leaves two accounts. -/
theorem removeAccount_spec_witness :
    (0 : Int) ≤ 1 ∧ (1 : Int) < (mW7.accounts.length : Int) ∧
    (mW7.removeAccount 1).1 = true ∧
    (mW7.removeAccount 1).2.accounts.length = mW7.accounts.length - 1 :=
  ⟨by decide, by decide,
   ((removeAccount_spec mW7 1).2 (by decide) (by decide)).1,
   ((removeAccount_spec mW7 1).2 (by decide) (by decide)).2.1⟩

end AccountManagerTS

namespace AccountManagerTS

/-! ### C8: addAccount — dedup-update in place, or append -/

/-- C8: `addAccount(tokens)` whose email or refresh token matches an
existing account (the first matching position `j`) overwrites that
account's credential fields in place and returns it, leaving the count,
cursor and sticky indices unchanged; otherwise it appends a fresh account
with `index = length`, `lastUsed = 0` and an empty rate-limit map, and
initializes both sticky pointers to 0 exactly when the store was
previously empty. -/
theorem addAccount_spec (now : Nat) (tokens : AntigravityTokens) (m : AccountManager) :
    (∀ (j : Nat) (a : ManagedAccount),
      m.accounts[j]? = some a → matchesTokens tokens a = true →
      (∀ (j' : Nat) (b : ManagedAccount), j' < j → m.accounts[j']? = some b →
        matchesTokens tokens b = false) →
      (m.addAccount now tokens).1 = updateExisting tokens a ∧
      (m.addAccount now tokens).2.accounts.length = m.accounts.length ∧
      (m.addAccount now tokens).2.accounts[j]? = some (updateExisting tokens a) ∧
      (∀ (k : Nat), k ≠ j → (m.addAccount now tokens).2.accounts[k]? = m.accounts[k]?) ∧
      (m.addAccount now tokens).2.cursor = m.cursor ∧
      (m.addAccount now tokens).2.claudeIdx = m.claudeIdx ∧
      (m.addAccount now tokens).2.geminiIdx = m.geminiIdx) ∧
    ((∀ (j : Nat) (a : ManagedAccount), m.accounts[j]? = some a →
        matchesTokens tokens a = false) →
      (m.addAccount now tokens).1 =
        ⟨m.accounts.length, tokens.email, tokens.project_id, tokens.refresh_token,
         tokens.access_token, tokens.expires_at, now, 0, RateLimitMap.empty, none⟩ ∧
      (m.addAccount now tokens).2.accounts =
        m.accounts ++ [(m.addAccount now tokens).1] ∧
      (m.addAccount now tokens).2.accounts.length = m.accounts.length + 1 ∧
      (m.addAccount now tokens).2.cursor = m.cursor ∧
      (if m.accounts.length = 0 then
        (m.addAccount now tokens).2.claudeIdx = 0 ∧
          (m.addAccount now tokens).2.geminiIdx = 0
      else
        (m.addAccount now tokens).2.claudeIdx = m.claudeIdx ∧
          (m.addAccount now tokens).2.geminiIdx = m.geminiIdx)) := by
  constructor
  · intro j a hj hpa hfirst
    have hfind : m.accounts.find? (matchesTokens tokens) = some a :=
      find?_of_first m.accounts (matchesTokens tokens) j a hj hpa
        (fun j' hj' b hb => hfirst j' b hj' hb)
    have hupd := updateFirstMatch_getElem?_of_first (matchesTokens tokens)
      (updateExisting tokens) m.accounts j a hj hpa
      (fun j' hj' b hb => hfirst j' b hj' hb)
    unfold AccountManager.addAccount
    rw [hfind]
    refine ⟨rfl, ?_, ?_, ?_, rfl, rfl, rfl⟩
    · exact updateFirstMatch_length (matchesTokens tokens) (updateExisting tokens) m.accounts
    · rw [hupd j]
      simp
    · intro k hk
      rw [hupd k]
      simp [hk]
  · intro hnone
    have hfind : m.accounts.find? (matchesTokens tokens) = none := by
      refine List.find?_eq_none.mpr ?_
      intro x hx
      obtain ⟨n, hn, he⟩ := List.mem_iff_getElem.mp hx
      have hx2 : m.accounts[n]? = some x := by
        rw [List.getElem?_eq_getElem hn, he]
      simp [hnone n x hx2]
    unfold AccountManager.addAccount
    rw [hfind]
    simp only [List.length_append, List.length_cons, List.length_nil]
    by_cases h0 : m.accounts.length = 0
    · rw [if_pos (by omega)]
      refine ⟨rfl, rfl, by simp, rfl, ?_⟩
      rw [if_pos h0]
      exact ⟨rfl, rfl⟩
    · rw [if_neg (by omega)]
      refine ⟨rfl, rfl, by simp, rfl, ?_⟩
      rw [if_neg h0]
      exact ⟨rfl, rfl⟩

def mW8 : AccountManager :=
  ⟨[⟨0, some "a@x", "p", "r1", none, none, 1, 4, RateLimitMap.empty, none⟩], 3, 0, 0⟩

/-- C8 witness: re-adding credentials with the same refresh token updates
the single existing account in place and does not change the count. -/
theorem addAccount_spec_witness :
    mW8.accounts[0]? = some ⟨0, some "a@x", "p", "r1", none, none, 1, 4, RateLimitMap.empty, none⟩ ∧
    matchesTokens ⟨some "new@x", "p2", "r1", none, none⟩
      ⟨0, some "a@x", "p", "r1", none, none, 1, 4, RateLimitMap.empty, none⟩ = true ∧
    (mW8.addAccount 9 ⟨some "new@x", "p2", "r1", none, none⟩).2.accounts.length =
      mW8.accounts.length :=
  ⟨by decide, by decide,
   ((addAccount_spec 9 ⟨some "new@x", "p2", "r1", none, none⟩ mW8).1 0
     ⟨0, some "a@x", "p", "r1", none, none, 1, 4, RateLimitMap.empty, none⟩
     (by decide) (by decide)
     (fun j' b hj' _ => absurd hj' (Nat.not_lt_zero j'))).2.1⟩

end AccountManagerTS

namespace AccountManagerTS

/-! ### C9: persistence round trip -/

theorem rateLimitMap_round_trip (x : RateLimitMap) :
    (if x.isEmpty then none else some x).getD RateLimitMap.empty = x := by
  by_cases h : x.isEmpty = true
  · rw [if_pos h]
    cases x with
    | mk c g1 g2 =>
      simp [RateLimitMap.isEmpty] at h
      simp [RateLimitMap.empty, h.1.1, h.1.2, h.2]
  · rw [if_neg h]
    rfl

/-- C9: `loadFromStorage(toStorageData())` yields an equivalent registry:
the same number of accounts in the same order with identical `email`,
`projectId`, `refreshToken`, `addedAt`, `lastUsed` and
`rateLimitResetTimes` (an empty map round-trips through omission), and
each family's sticky index comes back as `max(0, old) mod accountCount` —
in particular unchanged whenever it was already in `[0, accountCount)`. -/
theorem storage_round_trip (m : AccountManager) :
    (m.accounts.length = 0 →
      AccountManager.loadFromStorage (some m.toStorageData) = ⟨[], 0, -1, -1⟩) ∧
    (0 < m.accounts.length →
      (AccountManager.loadFromStorage (some m.toStorageData)).accounts.length =
        m.accounts.length ∧
      (∀ (k : Nat) (a : ManagedAccount), m.accounts[k]? = some a →
        ∃ b, (AccountManager.loadFromStorage (some m.toStorageData)).accounts[k]? = some b ∧
          b.email = a.email ∧ b.projectId = a.projectId ∧
          b.refreshToken = a.refreshToken ∧ b.addedAt = a.addedAt ∧
          b.lastUsed = a.lastUsed ∧
          b.rateLimitResetTimes = a.rateLimitResetTimes ∧ b.index = k) ∧
      (AccountManager.loadFromStorage (some m.toStorageData)).claudeIdx =
        (max 0 m.claudeIdx) % (m.accounts.length : Int) ∧
      (AccountManager.loadFromStorage (some m.toStorageData)).geminiIdx =
        (max 0 m.geminiIdx) % (m.accounts.length : Int) ∧
      (0 ≤ m.claudeIdx → m.claudeIdx < (m.accounts.length : Int) →
        (AccountManager.loadFromStorage (some m.toStorageData)).claudeIdx = m.claudeIdx) ∧
      (0 ≤ m.geminiIdx → m.geminiIdx < (m.accounts.length : Int) →
        (AccountManager.loadFromStorage (some m.toStorageData)).geminiIdx = m.geminiIdx)) := by
  have hmaplen : (m.toStorageData).accounts.length = m.accounts.length := by
    simp [AccountManager.toStorageData]
  constructor
  · intro h0
    unfold AccountManager.loadFromStorage
    simp only
    rw [if_pos (by rw [hmaplen]; exact h0)]
  · intro hpos
    have hne : ¬ (m.toStorageData).accounts.length = 0 := by omega
    have hhydlen : ∀ ld : List StoredAccount,
        (AccountManager.hydrateFrom 0 ld).length = ld.length := fun ld =>
      hydrateFrom_length 0 ld
    unfold AccountManager.loadFromStorage
    simp only
    rw [if_neg hne]
    simp only [hydrateFrom_length, hmaplen]
    have hmax1 : max 1 (m.accounts.length : Int) = (m.accounts.length : Int) :=
      max_eq_right (by exact_mod_cast hpos)
    have hmaxc : max 0 (max 0 m.claudeIdx) = max 0 m.claudeIdx := by
      rw [← max_assoc, max_self]
    have hmaxg : max 0 (max 0 m.geminiIdx) = max 0 m.geminiIdx := by
      rw [← max_assoc, max_self]
    have hacts : (m.toStorageData).activeIndexByFamily.claude = max 0 m.claudeIdx := rfl
    have hactg : (m.toStorageData).activeIndexByFamily.gemini = max 0 m.geminiIdx := rfl
    refine ⟨by simp, ?_, ?_, ?_, ?_, ?_⟩
    · intro k a hk
      rw [hydrateFrom_getElem?]
      have hproj : (m.toStorageData).accounts[k]? =
          some ⟨a.email, a.projectId, a.refreshToken, a.addedAt, a.lastUsed,
            if a.rateLimitResetTimes.isEmpty then none else some a.rateLimitResetTimes⟩ := by
        unfold AccountManager.toStorageData
        simp only [List.getElem?_map, hk, Option.map_some']
      rw [hproj]
      simp [AccountManager.hydrate, rateLimitMap_round_trip]
    · rw [hacts, hmaxc, hmax1]
    · rw [hactg, hmaxg, hmax1]
    · intro h1 h2
      rw [hacts, hmaxc, hmax1, max_eq_right h1]
      exact Int.emod_eq_of_lt h1 h2
    · intro h1 h2
      rw [hactg, hmaxg, hmax1, max_eq_right h1]
      exact Int.emod_eq_of_lt h1 h2

def mW9 : AccountManager :=
  ⟨[⟨0, some "a", "p", "r", none, none, 1, 2, ⟨some 99, none, none⟩, none⟩], 7, 0, 0⟩

/-- C9 witness: a one-account registry with a claude rate-limit entry
round-trips through storage with the account count and sticky index
preserved. -/
theorem storage_round_trip_witness :
    0 < mW9.accounts.length ∧
    (AccountManager.loadFromStorage (some mW9.toStorageData)).accounts.length =
      mW9.accounts.length ∧
    (AccountManager.loadFromStorage (some mW9.toStorageData)).claudeIdx = mW9.claudeIdx :=
  ⟨by decide,
   ((storage_round_trip mW9).2 (by decide)).1,
   ((storage_round_trip mW9).2 (by decide)).2.2.2.2.1 (by decide) (by decide)⟩

end AccountManagerTS

namespace AccountManagerTS

/-! ### C2: sticky indices stay in range; the cursor does not -/

/-- The registry operations quantified over by the invariant claim. -/
inductive Op where
  | add (now : Nat) (tokens : AntigravityTokens)
  | remove (i : Int)
  | load (data : Option AccountStorageData)
  | current (now : Nat) (family : ModelFamily)
  | next (now : Nat) (family : ModelFamily)

def applyOp (m : AccountManager) : Op → AccountManager
  | .add now tokens => (m.addAccount now tokens).2
  | .remove i => (m.removeAccount i).2
  | .load data => AccountManager.loadFromStorage data
  | .current now family => (m.getCurrentOrNextForFamily now family).2
  | .next now family => (m.getNextForFamily now family).2

def applyOps (m : AccountManager) (ops : List Op) : AccountManager :=
  ops.foldl applyOp m

/-- Every account's `index` field equals its position. -/
def indexOkL (l : List ManagedAccount) : Prop :=
  ∀ (k : Nat) (a : ManagedAccount), l[k]? = some a → a.index = k

/-- A sticky index is valid for the current store size: within
`[0, len)` when accounts exist, the `-1` sentinel when none do. -/
def idxInRange (len : Nat) (idx : Int) : Prop :=
  if len = 0 then idx = -1 else 0 ≤ idx ∧ idx < (len : Int)

/-- The reachable-state invariant of the manager. -/
def Inv (m : AccountManager) : Prop :=
  indexOkL m.accounts ∧
    idxInRange m.accounts.length m.claudeIdx ∧
    idxInRange m.accounts.length m.geminiIdx

theorem indexOkL_map_clear (now : Nat) (l : List ManagedAccount) (h : indexOkL l) :
    indexOkL (l.map (clearExpiredRateLimits now)) := by
  intro k a hk
  rw [List.getElem?_map] at hk
  cases ho : l[k]? with
  | none => rw [ho] at hk; simp at hk
  | some b =>
    rw [ho] at hk
    simp at hk
    rw [← hk, clear_index]
    exact h k b ho

theorem indexOkL_modifyAt (g : ManagedAccount → ManagedAccount)
    (hg : ∀ a, (g a).index = a.index) (n : Nat) (l : List ManagedAccount)
    (h : indexOkL l) : indexOkL (modifyAt g n l) := by
  intro k a hk
  rw [modifyAt_getElem?] at hk
  split at hk
  · cases ho : l[k]? with
    | none => rw [ho] at hk; simp at hk
    | some b =>
      rw [ho] at hk
      simp at hk
      rw [← hk, hg]
      exact h k b ho
  · exact h k a hk

theorem indexOkL_set (l : List ManagedAccount) (p : Nat) (b : ManagedAccount)
    (h : indexOkL l) (hb : b.index = p) : indexOkL (l.set p b) := by
  intro k a hk
  rw [List.getElem?_set] at hk
  split at hk
  · split at hk
    · rename_i hpk _
      simp at hk
      rw [← hk, hb, hpk]
    · simp at hk
  · exact h k a hk

theorem indexOkL_append_one (l : List ManagedAccount) (a : ManagedAccount)
    (h : indexOkL l) (ha : a.index = l.length) : indexOkL (l ++ [a]) := by
  intro k b hk
  rw [List.getElem?_append] at hk
  split at hk
  · exact h k b hk
  · rename_i hge
    have hk2 : k - l.length = 0 := by
      cases hko : ([a] : List ManagedAccount)[k - l.length]? with
      | none => rw [hko] at hk; simp at hk
      | some c =>
        have := (List.getElem?_eq_some.mp hko).1
        simp at this
        omega
    rw [hk2] at hk
    simp at hk
    rw [← hk, ha]
    omega

theorem updateFirstMatch_getElem?_cases (p : ManagedAccount → Bool)
    (g : ManagedAccount → ManagedAccount) (l : List ManagedAccount) :
    ∀ (k : Nat), (updateFirstMatch p g l)[k]? = l[k]? ∨
      (∃ b, l[k]? = some b ∧ (updateFirstMatch p g l)[k]? = some (g b)) := by
  induction l with
  | nil => intro k; left; rfl
  | cons x xs ih =>
    intro k
    by_cases hx : p x
    · cases k with
      | zero => right; exact ⟨x, by simp, by simp [updateFirstMatch, hx]⟩
      | succ i => left; simp [updateFirstMatch, hx]
    · cases k with
      | zero => left; simp [updateFirstMatch, hx]
      | succ i =>
        rcases ih i with h | ⟨b, hb, hg⟩
        · left; simpa [updateFirstMatch, hx] using h
        · right
          exact ⟨b, by simpa using hb, by simpa [updateFirstMatch, hx] using hg⟩

end AccountManagerTS

namespace AccountManagerTS

theorem aux_snd (now : Nat) (family : ModelFamily) (m : AccountManager) :
    ((m.getNextForFamilyAux now family).2.accounts.length = m.accounts.length ∧
     (m.getNextForFamilyAux now family).2.claudeIdx = m.claudeIdx ∧
     (m.getNextForFamilyAux now family).2.geminiIdx = m.geminiIdx) ∧
    (indexOkL m.accounts → indexOkL (m.getNextForFamilyAux now family).2.accounts) := by
  unfold AccountManager.getNextForFamilyAux
  simp only
  split
  · exact ⟨⟨by simp, rfl, rfl⟩, fun h => indexOkL_map_clear now m.accounts h⟩
  · refine ⟨⟨?_, rfl, rfl⟩, ?_⟩
    · simp [modifyAt_length]
    · intro h
      exact indexOkL_modifyAt (fun a => { a with lastUsed := now }) (fun a => rfl) _ _
        (indexOkL_map_clear now m.accounts h)

theorem mem_eligiblePositions_lt (now : Nat) (family : ModelFamily)
    (accounts : List ManagedAccount) (q : Nat)
    (h : q ∈ AccountManager.eligiblePositions now family accounts) : q < accounts.length := by
  unfold AccountManager.eligiblePositions at h
  exact List.mem_range.mp (List.mem_filter.mp h).1

theorem aux_some_lt (now : Nat) (family : ModelFamily) (m : AccountManager)
    (p : Nat) (m1 : AccountManager)
    (h : m.getNextForFamilyAux now family = (some p, m1)) : p < m1.accounts.length := by
  have hl : m1.accounts.length = m.accounts.length := by
    have := (aux_snd now family m).1.1
    rw [h] at this
    exact this
  unfold AccountManager.getNextForFamilyAux at h
  simp only at h
  split at h
  · simp at h
  · rename_i q hq
    have hqp : q = p := by
      have := congrArg Prod.fst h
      simpa using this
    subst hqp
    obtain ⟨hlt, heq⟩ := List.getElem?_eq_some.mp hq
    have hmem : q ∈ AccountManager.eligiblePositions now family
        (m.accounts.map (clearExpiredRateLimits now)) := heq ▸ List.getElem_mem hlt
    have := mem_eligiblePositions_lt now family _ q hmem
    simp at this
    omega

theorem adjustIdx_inRange (removed newLen : Nat) (idx : Int)
    (h0 : 0 ≤ idx) (hL : 1 ≤ newLen) :
    0 ≤ AccountManager.adjustIdx removed newLen idx ∧
      AccountManager.adjustIdx removed newLen idx < (newLen : Int) := by
  unfold AccountManager.adjustIdx
  simp only
  split <;> constructor <;> omega

theorem removeAccount_preserves (i : Int) (m : AccountManager) (h : Inv m) :
    Inv (m.removeAccount i).2 := by
  obtain ⟨hidx, hc, hg⟩ := h
  by_cases hv : i < 0 ∨ (m.accounts.length : Int) ≤ i
  · unfold AccountManager.removeAccount
    rw [if_pos hv]
    exact ⟨hidx, hc, hg⟩
  · unfold AccountManager.removeAccount
    rw [if_neg hv]
    push_neg at hv
    obtain ⟨h0, hlt⟩ := hv
    have htn : i.toNat < m.accounts.length := by omega
    have hlen : (reindexFrom 0 (removeAt i.toNat m.accounts)).length =
        m.accounts.length - 1 := by
      rw [reindexFrom_length, removeAt_length i.toNat m.accounts htn]
    by_cases hz : (reindexFrom 0 (removeAt i.toNat m.accounts)).length = 0
    · rw [if_pos hz]
      refine ⟨?_, by simp [idxInRange], by simp [idxInRange]⟩
      intro k a hk
      simp at hk
    · rw [if_neg hz]
      have hL1 : 1 ≤ (reindexFrom 0 (removeAt i.toNat m.accounts)).length := by omega
      have hlen0 : m.accounts.length ≠ 0 := by omega
      have hc0 : 0 ≤ m.claudeIdx := by
        unfold idxInRange at hc
        rw [if_neg hlen0] at hc
        exact hc.1
      have hg0 : 0 ≤ m.geminiIdx := by
        unfold idxInRange at hg
        rw [if_neg hlen0] at hg
        exact hg.1
      refine ⟨?_, ?_, ?_⟩
      · intro k a hk
        rw [reindexFrom_getElem?] at hk
        cases ho : (removeAt i.toNat m.accounts)[k]? with
        | none => rw [ho] at hk; simp at hk
        | some b =>
          rw [ho] at hk
          simp at hk
          rw [← hk]
      · unfold idxInRange
        rw [if_neg hz]
        exact adjustIdx_inRange i.toNat _ m.claudeIdx hc0 hL1
      · unfold idxInRange
        rw [if_neg hz]
        exact adjustIdx_inRange i.toNat _ m.geminiIdx hg0 hL1

theorem load_preserves (data : Option AccountStorageData) :
    Inv (AccountManager.loadFromStorage data) := by
  unfold AccountManager.loadFromStorage
  cases data with
  | none =>
    refine ⟨?_, by simp [idxInRange], by simp [idxInRange]⟩
    intro k a hk
    simp at hk
  | some d =>
    simp only
    split
    · refine ⟨?_, by simp [idxInRange], by simp [idxInRange]⟩
      intro k a hk
      simp at hk
    · rename_i hne
      have hlen : (AccountManager.hydrateFrom 0 d.accounts).length = d.accounts.length :=
        hydrateFrom_length 0 d.accounts
      have hpos : 0 < (AccountManager.hydrateFrom 0 d.accounts).length := by
        rw [hlen]
        omega
    
      have hposI : (0 : Int) < ((AccountManager.hydrateFrom 0 d.accounts).length : Int) := by
        exact_mod_cast hpos
      have hmax : max 1 ((AccountManager.hydrateFrom 0 d.accounts).length : Int) =
          ((AccountManager.hydrateFrom 0 d.accounts).length : Int) :=
        max_eq_right (by omega)
      have hnz : ((AccountManager.hydrateFrom 0 d.accounts).length : Int) ≠ 0 := by omega
      have hlen0 : (AccountManager.hydrateFrom 0 d.accounts).length ≠ 0 := by omega
      refine ⟨?_, ?_, ?_⟩
      · intro k a hk
        rw [hydrateFrom_getElem?] at hk
        cases ho : d.accounts[k]? with
        | none => rw [ho] at hk; simp at hk
        | some b =>
          rw [ho] at hk
          simp at hk
          rw [← hk]
          simp [AccountManager.hydrate]
      · unfold idxInRange
        rw [if_neg hlen0, hmax]
        exact ⟨Int.emod_nonneg _ hnz, Int.emod_lt_of_pos _ hposI⟩
      · unfold idxInRange
        rw [if_neg hlen0, hmax]
        exact ⟨Int.emod_nonneg _ hnz, Int.emod_lt_of_pos _ hposI⟩

end AccountManagerTS

namespace AccountManagerTS

theorem addAccount_preserves (now : Nat) (tokens : AntigravityTokens)
    (m : AccountManager) (h : Inv m) : Inv (m.addAccount now tokens).2 := by
  obtain ⟨hidx, hc, hg⟩ := h
  unfold AccountManager.addAccount
  cases hf : m.accounts.find? (matchesTokens tokens) with
  | some a =>
    simp only
    have hl := updateFirstMatch_length (matchesTokens tokens) (updateExisting tokens) m.accounts
    refine ⟨?_, ?_, ?_⟩
    · intro k b hk
      rcases updateFirstMatch_getElem?_cases (matchesTokens tokens) (updateExisting tokens)
          m.accounts k with hcase | ⟨c, hc2, hg2⟩
      · rw [hcase] at hk
        exact hidx k b hk
      · rw [hg2] at hk
        simp at hk
        rw [← hk]
        exact hidx k c hc2
    · unfold idxInRange at hc ⊢
      rw [hl]
      exact hc
    · unfold idxInRange at hg ⊢
      rw [hl]
      exact hg
  | none =>
    simp only
    have hidx2 : indexOkL (m.accounts ++ [⟨m.accounts.length, tokens.email, tokens.project_id,
        tokens.refresh_token, tokens.access_token, tokens.expires_at, now, 0,
        RateLimitMap.empty, none⟩]) :=
      indexOkL_append_one m.accounts _ hidx rfl
    split
    · refine ⟨hidx2, ?_, ?_⟩ <;>
      · unfold idxInRange
        rw [if_neg (by simp)]
        simp only
        constructor
        · omega
        · simp only [List.length_append, List.length_cons, List.length_nil]
          omega
    · rename_i h1
      have h0 : m.accounts.length ≠ 0 := fun hh => h1 (by simp [hh])
      have hcc := hc
      unfold idxInRange at hcc
      rw [if_neg h0] at hcc
      have hgg := hg
      unfold idxInRange at hgg
      rw [if_neg h0] at hgg
      refine ⟨hidx2, ?_, ?_⟩ <;>
      · unfold idxInRange
        rw [if_neg (by simp)]
        simp only
        constructor
        · omega
        · simp only [List.length_append, List.length_cons, List.length_nil]
          omega

theorem rotate_preserves (now : Nat) (family : ModelFamily) (m : AccountManager)
    (h : Inv m) : Inv (AccountManager.rotateForFamily now family m).2 := by
  obtain ⟨hidx, hc, hg⟩ := h
  unfold AccountManager.rotateForFamily
  cases haux : m.getNextForFamilyAux now family with
  | mk o m1 =>
    have hsnd := aux_snd now family m
    rw [haux] at hsnd
    obtain ⟨⟨hl, hcI, hgI⟩, hok⟩ := hsnd
    have hInv1 : Inv m1 := by
      refine ⟨hok hidx, ?_, ?_⟩
      · unfold idxInRange at hc ⊢
        rw [hl, hcI]
        exact hc
      · unfold idxInRange at hg ⊢
        rw [hl, hgI]
        exact hg
    cases o with
    | none => exact hInv1
    | some p =>
      simp only
      have hp : p < m1.accounts.length := aux_some_lt now family m p m1 haux
      obtain ⟨hidx1, hc1, hg1⟩ := hInv1
      have hidx2 : indexOkL (modifyAt
          (fun a => { a with lastSwitchReason := some SwitchReason.rateLimit }) p m1.accounts) :=
        indexOkL_modifyAt (fun a => { a with lastSwitchReason := some SwitchReason.rateLimit })
          (fun a => rfl) p m1.accounts hidx1
      have hlen2 : (modifyAt
          (fun a => { a with lastSwitchReason := some SwitchReason.rateLimit })
            p m1.accounts).length = m1.accounts.length :=
        modifyAt_length _ p m1.accounts
      have hlen0 : (modifyAt
          (fun a => { a with lastSwitchReason := some SwitchReason.rateLimit })
            p m1.accounts).length ≠ 0 := by omega
      have hCnew : idxInRange (modifyAt
          (fun a => { a with lastSwitchReason := some SwitchReason.rateLimit })
            p m1.accounts).length m1.claudeIdx := by
        unfold idxInRange at hc1 ⊢
        rw [hlen2]
        exact hc1
      have hGnew : idxInRange (modifyAt
          (fun a => { a with lastSwitchReason := some SwitchReason.rateLimit })
            p m1.accounts).length m1.geminiIdx := by
        unfold idxInRange at hg1 ⊢
        rw [hlen2]
        exact hg1
      split
      · rename_i a ha
        have hai : a.index = p := hidx2 p a ha
        have hPnew : idxInRange (modifyAt
            (fun a => { a with lastSwitchReason := some SwitchReason.rateLimit })
              p m1.accounts).length ((a.index : Int)) := by
          unfold idxInRange
          rw [if_neg hlen0]
          constructor
          · exact Int.natCast_nonneg a.index
          · rw [hlen2, hai]
            exact_mod_cast hp
        cases family with
        | claude => exact ⟨hidx2, hPnew, hGnew⟩
        | gemini => exact ⟨hidx2, hCnew, hPnew⟩
      · exact ⟨hidx2, hCnew, hGnew⟩

theorem next_preserves (now : Nat) (family : ModelFamily) (m : AccountManager)
    (h : Inv m) : Inv (m.getNextForFamily now family).2 := by
  rw [getNext_snd]
  obtain ⟨hidx, hc, hg⟩ := h
  obtain ⟨⟨hl, hcI, hgI⟩, hok⟩ := aux_snd now family m
  refine ⟨hok hidx, ?_, ?_⟩
  · unfold idxInRange at hc ⊢
    rw [hl, hcI]
    exact hc
  · unfold idxInRange at hg ⊢
    rw [hl, hgI]
    exact hg

theorem current_preserves (now : Nat) (family : ModelFamily) (m : AccountManager)
    (h : Inv m) : Inv (m.getCurrentOrNextForFamily now family).2 := by
  unfold AccountManager.getCurrentOrNextForFamily
  simp only
  split
  · split
    · rename_i hcond a ha
      obtain ⟨hidx, hc, hg⟩ := h
      have hai : a.index = (m.familyIdx family).toNat := hidx _ a ha
      have hlt : (m.familyIdx family).toNat < m.accounts.length :=
        (List.getElem?_eq_some.mp ha).1
      split
      · apply rotate_preserves
        refine ⟨indexOkL_set _ _ _ hidx (by rw [clear_index]; exact hai), ?_, ?_⟩
        · unfold idxInRange at hc ⊢
          rw [List.length_set]
          exact hc
        · unfold idxInRange at hg ⊢
          rw [List.length_set]
          exact hg
      · refine ⟨indexOkL_set _ _ _ hidx ?ix, ?_, ?_⟩
        case ix =>
          show (clearExpiredRateLimits now a).index = (m.familyIdx family).toNat
          rw [clear_index]
          exact hai
        · unfold idxInRange at hc ⊢
          rw [List.length_set]
          exact hc
        · unfold idxInRange at hg ⊢
          rw [List.length_set]
          exact hg
    · exact rotate_preserves now family m h
  · exact rotate_preserves now family m h

theorem initial_Inv : Inv AccountManager.initial := by
  refine ⟨?_, by simp [idxInRange, AccountManager.initial], by simp [idxInRange, AccountManager.initial]⟩
  intro k a hk
  simp [AccountManager.initial] at hk

theorem applyOp_preserves (m : AccountManager) (op : Op) (h : Inv m) :
    Inv (applyOp m op) := by
  cases op with
  | add now tokens => exact addAccount_preserves now tokens m h
  | remove i => exact removeAccount_preserves i m h
  | load data => exact load_preserves data
  | current now family => exact current_preserves now family m h
  | next now family => exact next_preserves now family m h

theorem applyOps_preserves (ops : List Op) (m : AccountManager) (h : Inv m) :
    Inv (applyOps m ops) := by
  induction ops generalizing m with
  | nil => exact h
  | cons op rest ih => exact ih (applyOp m op) (applyOp_preserves m op h)

end AccountManagerTS

namespace AccountManagerTS

/-- C2 counterexample: starting from the fresh manager, add one account
and call `getNextForFamily` twice; the account count is 1 but the cursor
has advanced to 2, outside `[0, accountCount)` — the claim fails for the
global rotation cursor. -/
theorem cursor_exceeds_count :
    0 < (applyOps AccountManager.initial
      [Op.add 1 ⟨some "a", "p", "r", none, none⟩,
       Op.next 2 ModelFamily.claude, Op.next 3 ModelFamily.claude]).getAccountCount ∧
    ¬ ((applyOps AccountManager.initial
      [Op.add 1 ⟨some "a", "p", "r", none, none⟩,
       Op.next 2 ModelFamily.claude, Op.next 3 ModelFamily.claude]).cursor <
        (applyOps AccountManager.initial
      [Op.add 1 ⟨some "a", "p", "r", none, none⟩,
       Op.next 2 ModelFamily.claude, Op.next 3 ModelFamily.claude]).getAccountCount) := by
  constructor
  · decide
  · decide

/-- C2 (amended): after any sequence of registry operations starting from
the fresh manager, both per-family sticky indices lie within
`[0, accountCount)` whenever the account count is positive and equal the
`-1` sentinel exactly when it is zero; the global rotation cursor, by
contrast, is a monotonically growing counter (reduced only by
`removeAccount` and `loadFromStorage`) that is reduced modulo the
eligible-set size at each use and may equal or exceed the account count. -/
theorem sticky_indices_invariant (ops : List Op) :
    (0 < (applyOps AccountManager.initial ops).getAccountCount →
      0 ≤ (applyOps AccountManager.initial ops).claudeIdx ∧
      (applyOps AccountManager.initial ops).claudeIdx <
        ((applyOps AccountManager.initial ops).getAccountCount : Int) ∧
      0 ≤ (applyOps AccountManager.initial ops).geminiIdx ∧
      (applyOps AccountManager.initial ops).geminiIdx <
        ((applyOps AccountManager.initial ops).getAccountCount : Int)) ∧
    ((applyOps AccountManager.initial ops).getAccountCount = 0 →
      (applyOps AccountManager.initial ops).claudeIdx = -1 ∧
      (applyOps AccountManager.initial ops).geminiIdx = -1) := by
  obtain ⟨hidx, hc, hg⟩ := applyOps_preserves ops AccountManager.initial initial_Inv
  unfold idxInRange at hc hg
  unfold AccountManager.getAccountCount
  constructor
  · intro hpos
    rw [if_neg (by omega)] at hc hg
    exact ⟨hc.1, hc.2, hg.1, hg.2⟩
  · intro hzero
    rw [if_pos hzero] at hc hg
    exact ⟨hc, hg⟩

/-- C2 witness: a single `addAccount` from the fresh manager gives one
account with both sticky indices inside `[0, 1)`. -/
theorem sticky_indices_invariant_witness :
    0 < (applyOps AccountManager.initial
      [Op.add 1 ⟨some "a", "p", "r", none, none⟩]).getAccountCount ∧
    0 ≤ (applyOps AccountManager.initial
      [Op.add 1 ⟨some "a", "p", "r", none, none⟩]).claudeIdx :=
  ⟨by decide,
   ((sticky_indices_invariant [Op.add 1 ⟨some "a", "p", "r", none, none⟩]).1 (by decide)).1⟩

end AccountManagerTS

namespace AccountManagerTS

/-! ### C5: round-robin fairness over a fully eligible store -/

/-- Every account in the store is eligible (not rate-limited) for the
family. -/
def allEligible (now : Nat) (family : ModelFamily) (m : AccountManager) : Prop :=
  ∀ (k : Nat) (a : ManagedAccount), m.accounts[k]? = some a →
    isRateLimitedForFamily now a family = false

/-- `n` consecutive `getNextForFamily` calls, collecting the returned
accounts. -/
def iterateNexts (now : Nat) (family : ModelFamily) :
    Nat → AccountManager → List (Option ManagedAccount) × AccountManager
  | 0, m => ([], m)
  | n + 1, m =>
    let r := m.getNextForFamily now family
    let rest := iterateNexts now family n r.2
    (r.1 :: rest.1, rest.2)

theorem eligiblePositions_all (now : Nat) (family : ModelFamily)
    (l : List ManagedAccount)
    (h : ∀ (k : Nat) (a : ManagedAccount), l[k]? = some a →
      isRateLimitedForFamily now a family = false) :
    AccountManager.eligiblePositions now family l = List.range l.length := by
  unfold AccountManager.eligiblePositions
  apply List.filter_eq_self.mpr
  intro q hq
  have hqlt := List.mem_range.mp hq
  cases ho : l[q]? with
  | none =>
    have := List.getElem?_eq_some.mpr ⟨hqlt, rfl⟩
    rw [ho] at this
    simp at this
  | some a =>
    simp only [ho]
    simp [h q a ho]

theorem getNext_all_eligible (now : Nat) (family : ModelFamily) (m : AccountManager)
    (N : Nat) (hN : m.accounts.length = N) (hpos : 0 < N)
    (helig : allEligible now family m) (hidx : indexOkL m.accounts) :
    ∃ a, (m.getNextForFamily now family).1 = some a ∧ a.index = m.cursor % N ∧
      (m.getNextForFamily now family).2.cursor = m.cursor + 1 ∧
      (m.getNextForFamily now family).2.accounts.length = N ∧
      allEligible now family (m.getNextForFamily now family).2 ∧
      indexOkL (m.getNextForFamily now family).2.accounts := by
  have hclen : (m.accounts.map (clearExpiredRateLimits now)).length = N := by
    simpa using hN
  have heligc : ∀ (k : Nat) (b : ManagedAccount),
      (m.accounts.map (clearExpiredRateLimits now))[k]? = some b →
      isRateLimitedForFamily now b family = false := by
    intro k b hk
    rw [List.getElem?_map] at hk
    cases ho : m.accounts[k]? with
    | none => rw [ho] at hk; simp at hk
    | some a =>
      rw [ho] at hk
      simp at hk
      rw [← hk, clear_limited_family]
      exact helig k a ho
  have hep : AccountManager.eligiblePositions now family
      (m.accounts.map (clearExpiredRateLimits now)) = List.range N := by
    rw [eligiblePositions_all now family _ heligc, hclen]
  have hmod : m.cursor % N < N := Nat.mod_lt _ hpos
  have haux : m.getNextForFamilyAux now family =
      (some (m.cursor % N),
       ⟨modifyAt (fun a => { a with lastUsed := now }) (m.cursor % N)
          (m.accounts.map (clearExpiredRateLimits now)),
        m.cursor + 1, m.claudeIdx, m.geminiIdx⟩) := by
    unfold AccountManager.getNextForFamilyAux
    simp only [hep, List.length_range]
    rw [List.getElem?_range hmod]
  have hnext : m.getNextForFamily now family =
      ((modifyAt (fun a => { a with lastUsed := now }) (m.cursor % N)
          (m.accounts.map (clearExpiredRateLimits now)))[m.cursor % N]?,
       ⟨modifyAt (fun a => { a with lastUsed := now }) (m.cursor % N)
          (m.accounts.map (clearExpiredRateLimits now)),
        m.cursor + 1, m.claudeIdx, m.geminiIdx⟩) := by
    unfold AccountManager.getNextForFamily
    rw [haux]
  obtain ⟨a, ha⟩ : ∃ a, m.accounts[m.cursor % N]? = some a := by
    have hlt : m.cursor % N < m.accounts.length := by omega
    exact ⟨m.accounts[m.cursor % N], List.getElem?_eq_getElem hlt⟩
  have hchosen : (modifyAt (fun a => { a with lastUsed := now }) (m.cursor % N)
      (m.accounts.map (clearExpiredRateLimits now)))[m.cursor % N]? =
      some { clearExpiredRateLimits now a with lastUsed := now } := by
    rw [modifyAt_getElem?, if_pos rfl, List.getElem?_map, ha]
    rfl
  refine ⟨{ clearExpiredRateLimits now a with lastUsed := now }, ?_, ?_, ?_, ?_, ?_, ?_⟩
  · rw [hnext, hchosen]
  · show (clearExpiredRateLimits now a).index = m.cursor % N
    rw [clear_index]
    exact hidx (m.cursor % N) a ha
  · rw [hnext]
  · rw [hnext]
    simp [modifyAt_length, hN]
  · intro k b hk
    rw [hnext] at hk
    simp only at hk
    rw [modifyAt_getElem?] at hk
    split at hk
    · rw [List.getElem?_map] at hk
      cases ho : m.accounts[k]? with
      | none => rw [ho] at hk; simp at hk
      | some c =>
        rw [ho] at hk
        simp at hk
        rw [← hk, limited_lastUsed, clear_limited_family]
        exact helig k c ho
    · rw [List.getElem?_map] at hk
      cases ho : m.accounts[k]? with
      | none => rw [ho] at hk; simp at hk
      | some c =>
        rw [ho] at hk
        simp at hk
        rw [← hk, clear_limited_family]
        exact helig k c ho
  · rw [hnext]
    exact indexOkL_modifyAt (fun a => { a with lastUsed := now }) (fun a => rfl) _ _
      (indexOkL_map_clear now m.accounts hidx)

end AccountManagerTS

namespace AccountManagerTS

theorem iterateNexts_indices (now : Nat) (family : ModelFamily) (n : Nat) :
    ∀ (m : AccountManager) (N : Nat), m.accounts.length = N → 0 < N →
    allEligible now family m → indexOkL m.accounts →
    (iterateNexts now family n m).1.map (fun r => r.map ManagedAccount.index) =
      (List.range n).map (fun k => some ((m.cursor + k) % N)) := by
  induction n with
  | zero => intro m N _ _ _ _; rfl
  | succ n ih =>
    intro m N h1 h2 h3 h4
    obtain ⟨a, ha1, ha2, hcur, hlen, helig2, hidx2⟩ :=
      getNext_all_eligible now family m N h1 h2 h3 h4
    have htail := ih (m.getNextForFamily now family).2 N hlen h2 helig2 hidx2
    unfold iterateNexts
    simp only [List.map_cons]
    rw [ha1, htail, hcur]
    rw [List.range_succ_eq_map]
    simp only [List.map_cons, List.map_map]
    congr 1
    · simp [ha2]
    · apply List.map_congr_left
      intro k _
      simp only [Function.comp, Nat.succ_eq_add_one]
      have harith : m.cursor + 1 + k = m.cursor + (k + 1) := by omega
      rw [harith]

theorem mod_rotation_perm (c N : Nat) (hN : 0 < N) :
    ((List.range N).map (fun k => (c + k) % N)).Perm (List.range N) := by
  have hnodup : ((List.range N).map (fun k => (c + k) % N)).Nodup := by
    refine List.Nodup.map_on ?_ (List.nodup_range N)
    intro k1 h1 k2 h2 he
    exact add_mod_inj c N k1 k2 (List.mem_range.mp h1) (List.mem_range.mp h2) he
  have hsub : ((List.range N).map (fun k => (c + k) % N)) ⊆ List.range N := by
    intro x hx
    rcases List.mem_map.mp hx with ⟨k, _, he⟩
    rw [← he]
    exact List.mem_range.mpr (Nat.mod_lt _ hN)
  have hsp := List.subperm_of_subset hnodup hsub
  exact hsp.perm_of_length_le (by simp)

/-- C5: with `N >= 1` accounts all eligible for the family, `N`
consecutive `getNextForFamily` calls each return an account, the returned
indices are `(cursor + k) % N` for `k = 0 .. N-1`, and that index list is
a permutation of `0 .. N-1`: each account is visited exactly once,
independently of the initial cursor value. -/
theorem round_robin_fairness (now : Nat) (family : ModelFamily) (m : AccountManager)
    (N : Nat) (hN : m.accounts.length = N) (hpos : 0 < N)
    (helig : allEligible now family m) (hidx : indexOkL m.accounts) :
    (iterateNexts now family N m).1.map (fun r => r.map ManagedAccount.index) =
      (List.range N).map (fun k => some ((m.cursor + k) % N)) ∧
    ((List.range N).map (fun k => (m.cursor + k) % N)).Perm (List.range N) :=
  ⟨iterateNexts_indices now family N m N hN hpos helig hidx,
   mod_rotation_perm m.cursor N hpos⟩

def mW5 : AccountManager :=
  ⟨[⟨0, some "a", "p", "r1", none, none, 1, 0, RateLimitMap.empty, none⟩,
    ⟨1, some "b", "p", "r2", none, none, 2, 0, RateLimitMap.empty, none⟩], 5, 0, 0⟩

/-- C5 witness: two eligible accounts and initial cursor 5; the two calls
return the accounts with indices `5 % 2 = 1` then `6 % 2 = 0`. -/
theorem round_robin_fairness_witness :
    mW5.accounts.length = 2 ∧
    (iterateNexts 9 ModelFamily.gemini 2 mW5).1.map (fun r => r.map ManagedAccount.index) =
      (List.range 2).map (fun k => some ((mW5.cursor + k) % 2)) :=
  ⟨by decide,
   (round_robin_fairness 9 ModelFamily.gemini mW5 2 (by decide) (by decide)
     (by
       intro k a hk
       match k with
       | 0 =>
         simp [mW5] at hk
         subst hk
         decide
       | 1 =>
         simp [mW5] at hk
         subst hk
         decide
       | (n + 2) =>
         simp [mW5] at hk)
     (by
       intro k a hk
       match k with
       | 0 =>
         simp [mW5] at hk
         subst hk
         decide
       | 1 =>
         simp [mW5] at hk
         subst hk
         decide
       | (n + 2) =>
         simp [mW5] at hk)).1⟩

end AccountManagerTS
